import Mathlib

/-!
Verification of the voxeltorus repository (src/main.rs).

The program is a Rust/macroquad voxel renderer. Its numeric type is `f32`;
we model `f32` values by exact rationals, extended with the IEEE special
values `+inf`, `-inf` and `NaN` (type `FP`) exactly where the program's
arithmetic can produce them (the division in `lattice_intersect`, whose
divisor may be zero). All arithmetic performed by the program on the inputs
considered here is exact, so no rounding model is needed; rounding and
overflow of `f32` are outside the model.

The Euclidean vector norm used by the source (`Vec3::length`,
`Vec3::try_normalize`) is irrational in general, so it cannot be a rational
function; it is abstracted as an explicit function parameter `len`
(respectively `nrm` for the normalized direction). Every theorem below is
proved for all values of these parameters; no verified property depends on
the actual norm.
-/

namespace Voxeltorus

/-! ## Extended rationals modelling `f32` special values -/

/-- An `f32` value: a finite (exact) rational, an infinity, or `NaN`.
`inf true` is `+inf`, `inf false` is `-inf`. -/
inductive FP where
  | fin (q : ℚ)
  | inf (sgn : Bool)
  | nan
  deriving DecidableEq, Repr

/-- The finite value of an `FP`, defaulting to `0` for non-finite values.
Used where the source feeds a (then degenerate) value back into exact
arithmetic. -/
def FP.toQ : FP → ℚ
  | .fin q => q
  | _ => 0

/-- Rust `f32::signum` on an exact value: `1.0` for positive and `+0.0`
arguments, `-1.0` for negative ones (rationals have no `-0.0`). -/
def signumQ (q : ℚ) : ℚ := if q < 0 then -1 else 1

/-- Rust `f32::signum` followed by `as i32`. -/
def signumZ (q : ℚ) : ℤ := if q < 0 then -1 else 1

/-- Division of two exact `f32` values: finite quotient for a nonzero
divisor, otherwise the IEEE zero-divisor results `±inf` / `NaN`. -/
def fdiv (a b : ℚ) : FP :=
  if b ≠ 0 then .fin (a / b)
  else if a = 0 then .nan
  else if 0 < a then .inf true
  else .inf false

/-- Rust `f32::min`: if one argument is `NaN` the other is returned,
otherwise the smaller value (`-inf` below all finite values below `+inf`). -/
def fpMin (a b : FP) : FP :=
  match a, b with
  | .nan, b => b
  | a, .nan => a
  | .inf true, b => b
  | a, .inf true => a
  | .inf false, _ => .inf false
  | _, .inf false => .inf false
  | .fin p, .fin q => if p ≤ q then .fin p else .fin q

/-- IEEE `==` on `f32` values: `NaN` compares unequal to everything
(including itself); infinities of equal sign compare equal. -/
def fpEq (a b : FP) : Bool :=
  match a, b with
  | .fin p, .fin q => p == q
  | .inf s, .inf t => s == t
  | _, _ => false

/-! ## Vectors -/

/-- `glam::Vec3` with exact components. -/
structure Vec3 where
  x : ℚ
  y : ℚ
  z : ℚ
  deriving DecidableEq, Repr

instance : Add Vec3 := ⟨fun a b => ⟨a.x + b.x, a.y + b.y, a.z + b.z⟩⟩

instance : Sub Vec3 := ⟨fun a b => ⟨a.x - b.x, a.y - b.y, a.z - b.z⟩⟩

instance : SMul ℚ Vec3 := ⟨fun c v => ⟨c * v.x, c * v.y, c * v.z⟩⟩

@[simp] theorem Vec3.add_def (a b : Vec3) :
    a + b = ⟨a.x + b.x, a.y + b.y, a.z + b.z⟩ := rfl

@[simp] theorem Vec3.sub_def (a b : Vec3) :
    a - b = ⟨a.x - b.x, a.y - b.y, a.z - b.z⟩ := rfl

@[simp] theorem Vec3.smul_def (c : ℚ) (v : Vec3) :
    c • v = ⟨c * v.x, c * v.y, c * v.z⟩ := rfl

/-- Component access `v[i]` (`glam` indexes `0 ↦ x`, `1 ↦ y`, `2 ↦ z`;
other indices do not occur in the program). -/
def Vec3.get (v : Vec3) : ℕ → ℚ
  | 0 => v.x
  | 1 => v.y
  | _ => v.z

@[simp] theorem Vec3.get_zero (v : Vec3) : v.get 0 = v.x := rfl

@[simp] theorem Vec3.get_one (v : Vec3) : v.get 1 = v.y := rfl

@[simp] theorem Vec3.get_two (v : Vec3) : v.get 2 = v.z := rfl

/-- `glam::Vec4` with exact components (colors). -/
structure Vec4 where
  x : ℚ
  y : ℚ
  z : ℚ
  w : ℚ
  deriving DecidableEq, Repr

instance : Add Vec4 := ⟨fun a b => ⟨a.x + b.x, a.y + b.y, a.z + b.z, a.w + b.w⟩⟩

instance : SMul ℚ Vec4 := ⟨fun c v => ⟨c * v.x, c * v.y, c * v.z, c * v.w⟩⟩

@[simp] theorem Vec4.add4_def (a b : Vec4) :
    a + b = ⟨a.x + b.x, a.y + b.y, a.z + b.z, a.w + b.w⟩ := rfl

@[simp] theorem Vec4.smul4_def (c : ℚ) (v : Vec4) :
    c • v = ⟨c * v.x, c * v.y, c * v.z, c * v.w⟩ := rfl

/-- All three components lie in the unit interval. -/
def inCube (p : Vec3) : Prop :=
  0 ≤ p.x ∧ p.x ≤ 1 ∧ 0 ≤ p.y ∧ p.y ≤ 1 ∧ 0 ≤ p.z ∧ p.z ≤ 1

instance (p : Vec3) : Decidable (inCube p) := by unfold inCube; infer_instance

/-! ## `lattice_intersect` (src/main.rs lines 63-77)

```rust
fn lattice_intersect(pos: Vec3, v: Vec3) -> (Vec3, [i32; 3], f32) {
    let t = ((v.signum() + 1.0) / 2.0 - pos) / v;
    let t_min: f32 = t.min_element();
    let mut i_min: usize = 0;
    for i in 0..3 {
        if t[i] == t_min {
            i_min = i
        }
    }
    let mut key: [i32; 3] = [0, 0, 0];
    key[i_min] = v[i_min].signum() as i32;
    let key2 = vec3(key[0] as f32, key[1] as f32, key[2] as f32);
    let x_new = pos + t_min*v - key2;
    return (x_new, key, (t_min*v).length());
}
```

The componentwise expression `((v.signum() + 1.0) / 2.0 - pos) / v` is
`exitT`; `t.min_element()` is `glam`'s `self.x.min(self.y.min(self.z))`;
the `for` loop is the fold in `imin`; the array write `key[i_min] = ...`
is `mkKey`. `(t_min*v).length()` is the abstracted norm `len` applied to
the exact displacement `t_min • v`. -/

/-- One component of `t = ((v.signum() + 1.0) / 2.0 - pos) / v`. -/
def exitT (p v : ℚ) : FP := fdiv ((signumQ v + 1) / 2 - p) v

/-- The vector `t`, as a function of the axis index. -/
def tOf (p v : Vec3) : ℕ → FP
  | 0 => exitT p.x v.x
  | 1 => exitT p.y v.y
  | _ => exitT p.z v.z

/-- `t.min_element()`, which `glam` computes as `t.x.min(t.y.min(t.z))`. -/
def tmin (p v : Vec3) : FP := fpMin (tOf p v 0) (fpMin (tOf p v 1) (tOf p v 2))

/-- The selection loop `for i in 0..3 { if t[i] == t_min { i_min = i } }`:
a fold over the iteration range, overwriting `i_min` on every index whose
`t` compares `==` to `t_min`. -/
def imin (p v : Vec3) : ℕ :=
  (List.range 3).foldl (fun acc i => if fpEq (tOf p v i) (tmin p v) then i else acc) 0

/-- The array `key` after `key[m] = s` starting from `[0, 0, 0]`. -/
def mkKey (m : ℕ) (s : ℤ) : ℤ × ℤ × ℤ :=
  (if m = 0 then s else 0, if m = 1 then s else 0, if m = 2 then s else 0)

/-- The crossing descriptor `key` returned by `lattice_intersect`. -/
def keyOf (p v : Vec3) : ℤ × ℤ × ℤ := mkKey (imin p v) (signumZ (v.get (imin p v)))

/-- `key2 = vec3(key[0] as f32, key[1] as f32, key[2] as f32)`. -/
def keyVec (k : ℤ × ℤ × ℤ) : Vec3 := ⟨(k.1 : ℚ), (k.2.1 : ℚ), (k.2.2 : ℚ)⟩

/-- `x_new = pos + t_min*v - key2`. -/
def newPos (p v : Vec3) : Vec3 := p + (tmin p v).toQ • v - keyVec (keyOf p v)

/-- The single-step primitive `lattice_intersect`, with the Euclidean norm
abstracted as `len`. -/
def lattice_intersect (len : Vec3 → ℚ) (p v : Vec3) : Vec3 × (ℤ × ℤ × ℤ) × ℚ :=
  (newPos p v, keyOf p v, len ((tmin p v).toQ • v))

/-! ## The voxel graph data model (src/main.rs lines 9-36) -/

/-- `struct Voxel { color: Vec4, transparent: bool }`. -/
structure Voxel where
  color : Vec4
  transparent : Bool
  deriving DecidableEq, Repr

/-- `struct Neighbors`: the six neighbor indices. -/
structure Neighbors where
  up_x : ℕ
  down_x : ℕ
  up_y : ℕ
  down_y : ℕ
  up_z : ℕ
  down_z : ℕ
  deriving DecidableEq, Repr

/-- `struct VoxelPair { voxel: Voxel, neighbors: Neighbors }`. -/
structure VoxelPair where
  voxel : Voxel
  neighbors : Neighbors
  deriving DecidableEq, Repr

/-- `type World = Vec<VoxelPair>`. -/
def World := List VoxelPair

instance : DecidableEq World := inferInstanceAs (DecidableEq (List VoxelPair))

/-- The initial voxel pair used by `build_world`: transparent, color
`vec4(0,0,0,1)`, all six neighbor links `0`. -/
def initPair : VoxelPair :=
  { voxel := { color := ⟨0, 0, 0, 1⟩, transparent := true }
    neighbors := ⟨0, 0, 0, 0, 0, 0⟩ }

/-- Indexing `world[i]` (always in bounds in the program; out-of-bounds
reads default to `initPair` in the model, where Rust would panic). -/
def World.at (w : World) (i : ℕ) : VoxelPair := List.getD w i initPair

/-! ## `raycast` (src/main.rs lines 79-105)

```rust
fn raycast(world: &World, vox_id: usize, basepoint: Vec3, ray: Vec3, max_steps: usize) -> (usize, Vec3, f32) {
    let (mut i, mut x) = (vox_id, basepoint);
    let mut k: [i32; 3];
    let mut dist = 0.0;
    let mut dt = 0.0;
    for step in 0..max_steps {
        (x, k, dt) = lattice_intersect(x, ray);
        dist = dist + dt;
        if k[0] == 1 { i = world[i].neighbors.up_x; }
        else if k[0] == -1 { i = world[i].neighbors.down_x; }
        else if k[1] == 1 { i = world[i].neighbors.up_y; }
        else if k[1] == -1 { i = world[i].neighbors.down_y; }
        else if k[2] == 1 { i = world[i].neighbors.up_z; }
        else if k[2] == -1 { i = world[i].neighbors.down_z; }
        if ! world[i].voxel.transparent {
            return (i, x, dist);
        }
    }
    return (i, x, max_steps as f32);
}
```

The loop is `raycastAux`, a recursion on the remaining step budget whose
first component records whether the early `return` (opaque cell found)
fired. -/

/-- The neighbor-following `if`/`else if` chain on the crossing key. -/
def stepNeighbor (world : World) (i : ℕ) (k : ℤ × ℤ × ℤ) : ℕ :=
  if k.1 = 1 then (world.at i).neighbors.up_x
  else if k.1 = -1 then (world.at i).neighbors.down_x
  else if k.2.1 = 1 then (world.at i).neighbors.up_y
  else if k.2.1 = -1 then (world.at i).neighbors.down_y
  else if k.2.2 = 1 then (world.at i).neighbors.up_z
  else if k.2.2 = -1 then (world.at i).neighbors.down_z
  else i

/-- The `for step in 0..max_steps` loop of `raycast`. Returns
`(hit, i, x, dist)` where `hit` is true iff the early `return` fired. -/
def raycastAux (world : World) (len : Vec3 → ℚ) (ray : Vec3) :
    ℕ → ℕ → Vec3 → ℚ → Bool × ℕ × Vec3 × ℚ
  | 0, i, x, dist => (false, i, x, dist)
  | steps + 1, i, x, dist =>
    let r := lattice_intersect len x ray
    let x' := r.1
    let k := r.2.1
    let dt := r.2.2
    let i' := stepNeighbor world i k
    if (world.at i').voxel.transparent then
      raycastAux world len ray steps i' x' (dist + dt)
    else
      (true, i', x', dist + dt)

/-- `raycast`: on a hit, `(i, x, dist)`; after `max_steps` completed steps
with no opaque cell, `(i, x, max_steps as f32)`. -/
def raycast (world : World) (len : Vec3 → ℚ) (vox_id : ℕ) (basepoint ray : Vec3)
    (max_steps : ℕ) : ℕ × Vec3 × ℚ :=
  match raycastAux world len ray max_steps vox_id basepoint 0 with
  | (true, i, x, dist) => (i, x, dist)
  | (false, i, x, _) => (i, x, (max_steps : ℚ))

/-- One step of the raycast walk on `(cell, local position)` state, with
the distance bookkeeping stripped; used to state what "the last cell
visited and the last local position" are. -/
def rayStep (world : World) (len : Vec3 → ℚ) (ray : Vec3) (s : ℕ × Vec3) : ℕ × Vec3 :=
  let r := lattice_intersect len s.2 ray
  (stepNeighbor world s.1 r.2.1, r.1)

/-! ## World generation (src/main.rs lines 109-173) -/

/-- `fn furl(i, j, k, ny, nz) -> usize { i*ny*nz + j*nz + k }`. -/
def furl (i j k ny nz : ℕ) : ℕ := i * ny * nz + j * nz + k

/-- `fn randf() -> f32 { (rand() as f32) / (u32::MAX as f32) }` applied to
one drawn `u32` value `r`. -/
def randf (r : ℕ) : ℚ := (r : ℚ) / ((2 ^ 32 - 1 : ℕ) : ℚ)

/-- `fn randr(a, b) -> f32 { a + (b - a) * randf() }`. -/
def randr (a b : ℚ) (r : ℕ) : ℚ := a + (b - a) * randf r

/-- `(i as i32 + 1).rem_euclid(n as i32) as usize` (on `i32`, `%` in Lean
is Euclidean remainder, which agrees with `rem_euclid` for a positive
modulus). -/
def upIdx (i n : ℕ) : ℕ := (((i : ℤ) + 1) % (n : ℤ)).toNat

/-- `(i as i32 - 1).rem_euclid(n as i32) as usize`. -/
def downIdx (i n : ℕ) : ℕ := (((i : ℤ) - 1) % (n : ℤ)).toNat

/-- The neighbor record written for cell `(i, j, k)` by the linking loop of
`build_world` (regular 3-torus connectivity). -/
def regularNeighbors (nx ny nz i j k : ℕ) : Neighbors :=
  { up_x := furl (upIdx i nx) j k ny nz
    down_x := furl (downIdx i nx) j k ny nz
    up_y := furl i (upIdx j ny) k ny nz
    down_y := furl i (downIdx j ny) k ny nz
    up_z := furl i j (upIdx k nz) ny nz
    down_z := furl i j (downIdx k nz) ny nz }

/-- The index triples visited by a nest `for i in 0..a { for j in 0..b {
for k in 0..c { ... } } }`, in iteration order. -/
def triples (a b c : ℕ) : List (ℕ × ℕ × ℕ) :=
  (List.range a).flatMap fun i =>
    (List.range b).flatMap fun j =>
      (List.range c).map fun k => (i, j, k)

/-- `world[n].neighbors = nb` (a `Vec` store mutating one field). -/
def setNeighbors (w : World) (n : ℕ) (nb : Neighbors) : World :=
  List.set w n { w.at n with neighbors := nb }

/-- One iteration of the linking loop of `build_world`. -/
def linkStep (nx ny nz : ℕ) (w : World) (t : ℕ × ℕ × ℕ) : World :=
  setNeighbors w (furl t.1 t.2.1 t.2.2 ny nz) (regularNeighbors nx ny nz t.1 t.2.1 t.2.2)

/-- One iteration of the terrain loop of `build_world`: three `rand()`
draws (modelled as the stream values `rng c`, `rng (c+1)`, `rng (c+2)` at
the current draw counter `c`) fill the color channels, and the cell is made
opaque. -/
def terrainStep (rng : ℕ → ℕ) (ny nz : ℕ) (acc : World × ℕ) (t : ℕ × ℕ × ℕ) :
    World × ℕ :=
  let w := acc.1
  let c := acc.2
  let n := furl t.1 t.2.1 t.2.2 ny nz
  (List.set w n
    { w.at n with
      voxel :=
        { color := ⟨randr 0.5 0.55 (rng c), randr 0.5 0.55 (rng (c + 1)),
            randr 0.5 0.55 (rng (c + 2)), 1⟩
          transparent := false } },
    c + 3)

/-- `build_world` (src/main.rs lines 119-173): a world of `nx*ny*nz` copies
of the trivial voxel pair, then the linking loop over all `(i, j, k)`, then
the terrain loop over `x in 0..nx, y in 0..ny/2, z in 0..nz`. The `rand()`
source is modelled as a stream `rng` of `u32` draws consumed in call
order. -/
def build_world (rng : ℕ → ℕ) (nx ny nz : ℕ) : World :=
  let w : World := List.replicate (nx * ny * nz) initPair
  let w := (triples nx ny nz).foldl (linkStep nx ny nz) w
  ((triples nx (ny / 2) nz).foldl (terrainStep rng ny nz) (w, 0)).1

/-! ## Camera controller pieces (src/main.rs, `main`) -/

/-- The held movement keys (LeftShift, W, S, A, D) of one tick. -/
structure Keys where
  lshift : Bool
  w : Bool
  s : Bool
  a : Bool
  d : Bool
  deriving DecidableEq, Repr

/-- The desired-direction accumulation of lines 231-250: starts from
`vec3(0,0,0)` and adds/subtracts the basis vectors per held key. -/
def moveDir (k : Keys) (look right : Vec3) : Vec3 :=
  let dx : Vec3 := ⟨0, 0, 0⟩
  let dx := if k.lshift then dx - ⟨0, 1, 0⟩ else dx
  let dx := if k.w then dx + look else dx
  let dx := if k.s then dx - look else dx
  let dx := if k.a then dx - right else dx
  let dx := if k.d then dx + right else dx
  dx

/-- Squared Euclidean length (exact). -/
def lenSq (v : Vec3) : ℚ := v.x * v.x + v.y * v.y + v.z * v.z

/-- `glam::Vec3::try_normalize`: `Some(self * (1/length))` when the length
is positive and finite, `None` otherwise (in particular for the zero
vector). For exact finite inputs the guard `length > 0` is equivalent to
`lenSq > 0`; the irrational normalized vector itself is abstracted as
`nrm`. -/
def try_normalize (nrm : Vec3 → Vec3) (v : Vec3) : Option Vec3 :=
  if 0 < lenSq v then some (nrm v) else none

/-- Lines 252-257: `match dx.try_normalize() { Some(dx) => position +
speed * dx, None => position }`. -/
def applyMove (nrm : Vec3 → Vec3) (speed : ℚ) (p dx : Vec3) : Vec3 :=
  match try_normalize nrm dx with
  | some u => p + speed • u
  | none => p

/-- The per-axis shift `camera_delta[a]` of lines 272-293: `+1` below `0`,
`-1` above `1`, otherwise `0`. -/
def shiftQ (c : ℚ) : ℚ := if c < 0 then 1 else if 1 < c then -1 else 0

/-- The cell-boundary rebasing of lines 272-294: per axis, if the local
coordinate is below `0` (resp. above `1`) move the current cell to the
`down` (resp. `up`) neighbor of that axis (the cell updates are sequential,
each reading the cell produced by the previous axis); the accumulated
`camera_delta` is added to the position at the end. -/
def rebase (world : World) (i : ℕ) (p : Vec3) : ℕ × Vec3 :=
  let i := if p.x < 0 then (world.at i).neighbors.down_x
           else if 1 < p.x then (world.at i).neighbors.up_x else i
  let i := if p.y < 0 then (world.at i).neighbors.down_y
           else if 1 < p.y then (world.at i).neighbors.up_y else i
  let i := if p.z < 0 then (world.at i).neighbors.down_z
           else if 1 < p.z then (world.at i).neighbors.up_z else i
  (i, p + ⟨shiftQ p.x, shiftQ p.y, shiftQ p.z⟩)

/-- The break edit (line 302): `world[target_i].voxel.transparent = true`. -/
def breakEdit (world : World) (i : ℕ) : World :=
  List.set world i { world.at i with voxel := { (world.at i).voxel with transparent := true } }

/-! ## Parallel renderer pieces (src/main.rs lines 314-327) -/

/-- `const VIEW_DISTANCE: usize = 128`. -/
def VIEW_DISTANCE : ℕ := 128

/-- `const AMBIENT: Vec4 = vec4(0.0, 0.0, 0.0, 1.0)`. -/
def AMBIENT : Vec4 := ⟨0, 0, 0, 1⟩

/-- The per-pixel body of lines 319-325, given the already computed ray
direction: the view raycast, the fog factor with crosshair-highlight
blending, and the final color blend. Returns the stored
`(color, distance)` pair. -/
def renderPixel (world : World) (len : Vec3 → ℚ) (cam_i : ℕ) (cam_pos ray : Vec3)
    (target_i : ℕ) : Vec4 × ℚ :=
  let r := raycast world len cam_i cam_pos ray VIEW_DISTANCE
  let rayhit_i := r.1
  let distance := r.2.2
  let fade := 1.7321 * distance / (VIEW_DISTANCE : ℚ)
  let fade := if rayhit_i = target_i then 0.5 * (fade + 1) else fade
  (fade • AMBIENT + (1 - fade) • (world.at rayhit_i).voxel.color, distance)

/-- Modelled from the spec's words (claim C9): the fog factor is `1.7321`
times the raycast-returned distance divided by the maximum view-distance
step budget, replaced by its halfway blend toward `1` exactly when the hit
cell equals the targeted cell. -/
def fadeSpec (distance : ℚ) (hitIsTarget : Bool) : ℚ :=
  let f := 1.7321 * distance / (VIEW_DISTANCE : ℚ)
  if hitIsTarget then 0.5 * (f + 1) else f

/-- Modelled from the spec's words (claim C9): the final pixel color is the
linear interpolation `fade * ambient + (1 - fade) * hitColor`. -/
def pixelColorSpec (ambient hitColor : Vec4) (distance : ℚ) (hitIsTarget : Bool) : Vec4 :=
  fadeSpec distance hitIsTarget • ambient + (1 - fadeSpec distance hitIsTarget) • hitColor

/-- Modelled from the spec's words (claim C5): an opaque terrain voxel with
each color channel sampled from the band `[0.5, 0.55]` (and the reserved
fourth channel `1`). -/
def bandedOpaque (vx : Voxel) : Prop :=
  vx.transparent = false ∧
  1/2 ≤ vx.color.x ∧ vx.color.x ≤ 11/20 ∧
  1/2 ≤ vx.color.y ∧ vx.color.y ≤ 11/20 ∧
  1/2 ≤ vx.color.z ∧ vx.color.z ≤ 11/20 ∧
  vx.color.w = 1

/-! ## Concrete instances for witnesses and counterexamples -/

/-- A degenerate norm instantiation for theorems whose statement does not
depend on the abstracted Euclidean norm. -/
def len0 : Vec3 → ℚ := fun _ => 0

/-- A constant-zero `u32` stream. -/
def rng0 : ℕ → ℕ := fun _ => 0

/-- The `1 × 1 × 1` generated world: a single transparent cell linked to
itself on every axis. -/
def W1 : World := build_world rng0 1 1 1

/-! # Theorems -/

/-! ## Helper lemmas about `FP` and `lattice_intersect` -/

theorem fpMin_eq_left_or_right (a b : FP) : fpMin a b = a ∨ fpMin a b = b := by
  rcases a with q | s | _ <;> rcases b with q' | s' | _ <;>
    first
      | exact Or.inl rfl
      | exact Or.inr rfl
      | (rcases s with _ | _ <;> first | exact Or.inl rfl | exact Or.inr rfl)
      | (rcases s' with _ | _ <;> first | exact Or.inl rfl | exact Or.inr rfl)
      | (rcases s with _ | _ <;> rcases s' with _ | _ <;>
          first | exact Or.inl rfl | exact Or.inr rfl)
      | (simp only [fpMin]; split <;> [exact Or.inl rfl; exact Or.inr rfl])

theorem fpMin_le_fin_left (a b : FP) (q r : ℚ) (hm : fpMin a b = .fin q)
    (ha : a = .fin r) : q ≤ r := by
  subst ha
  rcases b with q' | s' | _
  · simp only [fpMin] at hm
    split_ifs at hm with h
    · injection hm with h2; subst h2; exact le_refl _
    · injection hm with h2; subst h2; linarith [not_le.mp h]
  · rcases s' with _ | _
    · simp [fpMin] at hm
    · simp only [fpMin] at hm; injection hm with h2; subst h2; exact le_refl _
  · simp only [fpMin] at hm; injection hm with h2; subst h2; exact le_refl _

theorem fpMin_le_fin_right (a b : FP) (q r : ℚ) (hm : fpMin a b = .fin q)
    (hb : b = .fin r) : q ≤ r := by
  subst hb
  rcases a with q' | s' | _
  · simp only [fpMin] at hm
    split_ifs at hm with h
    · injection hm with h2; subst h2; exact h
    · injection hm with h2; subst h2; exact le_refl _
  · rcases s' with _ | _
    · simp [fpMin] at hm
    · simp only [fpMin] at hm; injection hm with h2; subst h2; exact le_refl _
  · simp only [fpMin] at hm; injection hm with h2; subst h2; exact le_refl _

theorem fpMin_fin_exists (a b : FP) (q : ℚ) (hm : fpMin a b = .fin q) :
    a = .fin q ∨ b = .fin q := by
  rcases fpMin_eq_left_or_right a b with h | h <;> rw [hm] at h
  · exact Or.inl h.symm
  · exact Or.inr h.symm

theorem fpMin_fin_left (a b : FP) (r : ℚ) (ha : a = .fin r) (hb : b ≠ .inf false) :
    ∃ q, fpMin a b = .fin q := by
  subst ha
  rcases b with q' | s' | _
  · simp only [fpMin]
    split
    · exact ⟨r, rfl⟩
    · exact ⟨q', rfl⟩
  · rcases s' with _ | _
    · exact absurd rfl hb
    · exact ⟨r, rfl⟩
  · exact ⟨r, rfl⟩

theorem fpMin_fin_right (a b : FP) (r : ℚ) (hb : b = .fin r) (ha : a ≠ .inf false) :
    ∃ q, fpMin a b = .fin q := by
  subst hb
  rcases a with q' | s' | _
  · simp only [fpMin]
    split
    · exact ⟨q', rfl⟩
    · exact ⟨r, rfl⟩
  · rcases s' with _ | _
    · exact absurd rfl ha
    · exact ⟨r, rfl⟩
  · exact ⟨r, rfl⟩

theorem fpMin_ne_ninf (a b : FP) (ha : a ≠ .inf false) (hb : b ≠ .inf false) :
    fpMin a b ≠ .inf false := by
  rcases fpMin_eq_left_or_right a b with h | h <;> rw [h] <;> assumption

theorem fpEq_fin (a : FP) (q : ℚ) (h : fpEq a (.fin q) = true) : a = .fin q := by
  rcases a with q' | s' | _ <;> simp only [fpEq] at h
  · rw [beq_iff_eq] at h; rw [h]
  · cases h
  · cases h

theorem fpEq_fin_self (q : ℚ) : fpEq (.fin q) (.fin q) = true := by
  simp [fpEq]

theorem fdiv_zero_not_fin (a q : ℚ) : fdiv a 0 ≠ .fin q := by
  unfold fdiv
  simp only [ne_eq, not_true_eq_false, if_false, ite_not]
  split
  · intro h; cases h
  · split
    · intro h; cases h
    · intro h; cases h

theorem exitT_pos (p v : ℚ) (hv : 0 < v) : exitT p v = .fin ((1 - p) / v) := by
  unfold exitT signumQ fdiv
  rw [if_neg (not_lt.mpr hv.le), if_pos hv.ne']
  norm_num

theorem exitT_neg (p v : ℚ) (hv : v < 0) : exitT p v = .fin (-p / v) := by
  unfold exitT signumQ fdiv
  rw [if_pos hv, if_pos hv.ne]
  norm_num

theorem exitT_zero_not_fin (p q : ℚ) : exitT p 0 ≠ .fin q :=
  fdiv_zero_not_fin _ q

theorem exitT_ne_ninf (p v : ℚ) (hp : p ≤ 1) : exitT p v ≠ .inf false := by
  rcases lt_trichotomy v 0 with hv | hv | hv
  · rw [exitT_neg p v hv]; intro h; cases h
  · subst hv
    unfold exitT signumQ fdiv
    rw [if_neg (lt_irrefl 0)]
    have h1 : ((1 : ℚ) + 1) / 2 - p = 1 - p := by norm_num
    rw [h1]
    simp only [ne_eq, not_true_eq_false, if_false, ite_not]
    rcases eq_or_lt_of_le hp with h | h
    · rw [if_pos (by rw [h]; ring)]
      intro hc; cases hc
    · rw [if_neg (by intro hc; nlinarith), if_pos (by linarith)]
      intro hc; cases hc
  · rw [exitT_pos p v hv]; intro h; cases h

theorem exitT_nonneg (p v q : ℚ) (h0 : 0 ≤ p) (h1 : p ≤ 1)
    (hf : exitT p v = .fin q) : 0 ≤ q := by
  rcases lt_trichotomy v 0 with hv | hv | hv
  · rw [exitT_neg p v hv] at hf
    cases hf
    exact div_nonneg_iff.mpr (Or.inr ⟨by linarith, hv.le⟩)
  · subst hv; exact absurd hf (exitT_zero_not_fin p q)
  · rw [exitT_pos p v hv] at hf
    cases hf
    exact div_nonneg (by linarith) hv.le

theorem tOf_get (p v : Vec3) (i : ℕ) :
    tOf p v i = exitT (p.get i) (v.get i) := by
  rcases i with _ | _ | i <;> rfl

theorem inCube_get (p : Vec3) (hp : inCube p) (i : ℕ) :
    0 ≤ p.get i ∧ p.get i ≤ 1 := by
  obtain ⟨h1, h2, h3, h4, h5, h6⟩ := hp
  rcases i with _ | _ | i <;> exact ⟨by assumption, by assumption⟩

theorem vec3_ne_zero (v : Vec3) (hv : v ≠ ⟨0, 0, 0⟩) :
    v.x ≠ 0 ∨ v.y ≠ 0 ∨ v.z ≠ 0 := by
  by_contra h
  push_neg at h
  obtain ⟨hx, hy, hz⟩ := h
  exact hv (by cases v; simp_all)

theorem tOf_ne_ninf (p v : Vec3) (hp : inCube p) (i : ℕ) :
    tOf p v i ≠ .inf false := by
  obtain ⟨h1, h2, h3, h4, h5, h6⟩ := hp
  rcases i with _ | _ | i <;> exact exitT_ne_ninf _ _ (by assumption)

theorem imin_eq (p v : Vec3) :
    imin p v =
      (if fpEq (tOf p v 2) (tmin p v) then 2
       else if fpEq (tOf p v 1) (tmin p v) then 1
       else if fpEq (tOf p v 0) (tmin p v) then 0 else 0) := rfl

theorem imin_lt_3 (p v : Vec3) : imin p v < 3 := by
  rw [imin_eq]
  split_ifs <;> omega

theorem imin_tied (p v : Vec3) (j : ℕ) (hj : j < 3)
    (h : fpEq (tOf p v j) (tmin p v) = true) :
    fpEq (tOf p v (imin p v)) (tmin p v) = true := by
  rw [imin_eq]
  split_ifs with h2 h1 h0
  · exact h2
  · exact h1
  · exact h0
  · rcases j with _ | _ | _ | j
    · exact absurd h h0
    · exact absurd h h1
    · exact absurd h h2
    · omega

theorem imin_maximal (p v : Vec3) (j : ℕ) (hj : j < 3)
    (h : fpEq (tOf p v j) (tmin p v) = true) : j ≤ imin p v := by
  rw [imin_eq]
  split_ifs with h2 h1 h0
  · omega
  · rcases j with _ | _ | _ | j
    · omega
    · omega
    · exact absurd h h2
    · omega
  · rcases j with _ | _ | _ | j
    · omega
    · exact absurd h h1
    · exact absurd h h2
    · omega
  · rcases j with _ | _ | _ | j
    · exact absurd h h0
    · exact absurd h h1
    · exact absurd h h2
    · omega

/-- Under the claims' hypotheses (position in the unit cube, direction not
the zero vector), the minimum exit parameter is a finite nonnegative
rational, it is attained at the selected axis, the selected axis has a
nonzero direction component, and it bounds each axis's finite exit
parameter from below. -/
theorem latticeMain (p v : Vec3) (hp : inCube p) (hv : v ≠ ⟨0, 0, 0⟩) :
    ∃ q, tmin p v = .fin q ∧ 0 ≤ q ∧
      tOf p v (imin p v) = .fin q ∧ v.get (imin p v) ≠ 0 ∧
      (∀ r, tOf p v 0 = .fin r → q ≤ r) ∧
      (∀ r, tOf p v 1 = .fin r → q ≤ r) ∧
      (∀ r, tOf p v 2 = .fin r → q ≤ r) := by
  have hn0 : tOf p v 0 ≠ .inf false := tOf_ne_ninf p v hp 0
  have hn1 : tOf p v 1 ≠ .inf false := tOf_ne_ninf p v hp 1
  have hn2 : tOf p v 2 ≠ .inf false := tOf_ne_ninf p v hp 2
  have hinner : fpMin (tOf p v 1) (tOf p v 2) ≠ .inf false :=
    fpMin_ne_ninf _ _ hn1 hn2
  have hfinax : ∀ i, i < 3 → v.get i ≠ 0 → ∃ r, tOf p v i = .fin r := by
    intro i hi hvi
    rw [tOf_get p v i]
    rcases lt_trichotomy (v.get i) 0 with hs | hs | hs
    · exact ⟨_, exitT_neg _ _ hs⟩
    · exact absurd hs hvi
    · exact ⟨_, exitT_pos _ _ hs⟩
  have hfin : ∃ q, tmin p v = .fin q := by
    rcases vec3_ne_zero v hv with hx | hy | hz
    · obtain ⟨r, hr⟩ := hfinax 0 (by omega) hx
      exact fpMin_fin_left _ _ r hr hinner
    · obtain ⟨r, hr⟩ := hfinax 1 (by omega) hy
      obtain ⟨s, hs⟩ := fpMin_fin_left _ _ r hr hn2
      exact fpMin_fin_right _ _ s hs hn0
    · obtain ⟨r, hr⟩ := hfinax 2 (by omega) hz
      obtain ⟨s, hs⟩ := fpMin_fin_right _ _ r hr hn1
      exact fpMin_fin_right _ _ s hs hn0
  obtain ⟨q, hq⟩ := hfin
  have hattain : tOf p v 0 = .fin q ∨ tOf p v 1 = .fin q ∨ tOf p v 2 = .fin q := by
    rcases fpMin_fin_exists _ _ q hq with h | h
    · exact Or.inl h
    · exact Or.inr (fpMin_fin_exists _ _ q h)
  have hmin0 : ∀ r, tOf p v 0 = .fin r → q ≤ r := fun r hr =>
    fpMin_le_fin_left _ _ q r hq hr
  have hmin1 : ∀ r, tOf p v 1 = .fin r → q ≤ r := by
    intro r hr
    obtain ⟨s, hs⟩ := fpMin_fin_left _ _ r hr hn2
    exact le_trans (fpMin_le_fin_right _ _ q s hq hs) (fpMin_le_fin_left _ _ s r hs hr)
  have hmin2 : ∀ r, tOf p v 2 = .fin r → q ≤ r := by
    intro r hr
    obtain ⟨s, hs⟩ := fpMin_fin_right _ _ r hr hn1
    exact le_trans (fpMin_le_fin_right _ _ q s hq hs) (fpMin_le_fin_right _ _ s r hs hr)
  have hqnn : 0 ≤ q := by
    rcases hattain with h | h | h
    · rw [tOf_get p v 0] at h
      exact exitT_nonneg _ _ q (inCube_get p hp 0).1 (inCube_get p hp 0).2 h
    · rw [tOf_get p v 1] at h
      exact exitT_nonneg _ _ q (inCube_get p hp 1).1 (inCube_get p hp 1).2 h
    · rw [tOf_get p v 2] at h
      exact exitT_nonneg _ _ q (inCube_get p hp 2).1 (inCube_get p hp 2).2 h
  have hseltied : fpEq (tOf p v (imin p v)) (tmin p v) = true := by
    rcases hattain with h | h | h
    · exact imin_tied p v 0 (by omega) (by rw [h, hq]; exact fpEq_fin_self q)
    · exact imin_tied p v 1 (by omega) (by rw [h, hq]; exact fpEq_fin_self q)
    · exact imin_tied p v 2 (by omega) (by rw [h, hq]; exact fpEq_fin_self q)
  have hsel : tOf p v (imin p v) = .fin q := by
    rw [hq] at hseltied
    exact fpEq_fin _ q hseltied
  have hvm : v.get (imin p v) ≠ 0 := by
    intro h0
    rw [tOf_get p v _, h0] at hsel
    exact exitT_zero_not_fin _ q hsel
  exact ⟨q, hq, hqnn, hsel, hvm, hmin0, hmin1, hmin2⟩

/-- Bound for a coordinate whose axis is not the crossed one: advancing by
the minimal exit parameter keeps it in the unit interval. -/
theorem coordOther (pc vc q : ℚ) (h0 : 0 ≤ pc) (h1 : pc ≤ 1) (hq : 0 ≤ q)
    (hmin : ∀ r, exitT pc vc = .fin r → q ≤ r) :
    0 ≤ pc + q * vc ∧ pc + q * vc ≤ 1 := by
  rcases lt_trichotomy vc 0 with hv | hv | hv
  · have hr := hmin _ (exitT_neg pc vc hv)
    have h2 : (-pc / vc) * vc ≤ q * vc := mul_le_mul_of_nonpos_right hr hv.le
    rw [div_mul_cancel₀ _ hv.ne] at h2
    have h3 : q * vc ≤ 0 := mul_nonpos_iff.mpr (Or.inl ⟨hq, hv.le⟩)
    constructor <;> linarith
  · subst hv
    constructor <;> nlinarith
  · have hr := hmin _ (exitT_pos pc vc hv)
    have h2 : q * vc ≤ ((1 - pc) / vc) * vc := mul_le_mul_of_nonneg_right hr hv.le
    rw [div_mul_cancel₀ _ hv.ne'] at h2
    have h3 : 0 ≤ q * vc := mul_nonneg hq hv.le
    constructor <;> linarith

/-- The crossed coordinate, after subtracting the exit side, lands exactly
on the opposite face (hence inside the unit interval). -/
theorem coordCrossed (pc vc q : ℚ) (hvc : vc ≠ 0)
    (hfin : exitT pc vc = .fin q) :
    0 ≤ pc + q * vc - (signumZ vc : ℚ) ∧ pc + q * vc - (signumZ vc : ℚ) ≤ 1 := by
  rcases hvc.lt_or_lt with hv | hv
  · rw [exitT_neg pc vc hv] at hfin
    injection hfin with h2
    subst h2
    rw [div_mul_cancel₀ _ hv.ne]
    unfold signumZ
    rw [if_pos hv]
    norm_num
  · rw [exitT_pos pc vc hv] at hfin
    injection hfin with h2
    subst h2
    rw [div_mul_cancel₀ _ hv.ne']
    unfold signumZ
    rw [if_neg (not_lt.mpr hv.le)]
    norm_num

/-! ## Claim C3 — the single step keeps the local position in the unit cube -/

/-- C3: for every local position `p` with all components in `[0,1]` and
every nonzero direction `v`, the new local position returned by
`lattice_intersect` has the crossed axis's coordinate wrapped back into
`[0,1]` and the other two coordinates within `[0,1]` as well: no
coordinate leaves the unit range after a step. -/
theorem advance_stays_in_unit_cube (len : Vec3 → ℚ) (p v : Vec3)
    (hp : inCube p) (hv : v ≠ ⟨0, 0, 0⟩) :
    inCube (lattice_intersect len p v).1 := by
  obtain ⟨q, hq, hqnn, hsel, hvm, hmin0, hmin1, hmin2⟩ := latticeMain p v hp hv
  obtain ⟨hx0, hx1, hy0, hy1, hz0, hz1⟩ := hp
  have hq' : (tmin p v).toQ = q := by rw [hq]; rfl
  have hm3 := imin_lt_3 p v
  simp only [tOf_get, Vec3.get_zero, Vec3.get_one, Vec3.get_two] at hmin0 hmin1 hmin2
  show inCube (newPos p v)
  unfold newPos keyOf
  rw [hq']
  have hcase : imin p v = 0 ∨ imin p v = 1 ∨ imin p v = 2 := by omega
  rcases hcase with hc | hc | hc <;>
    rw [hc] at hsel hvm ⊢ <;>
    simp only [tOf_get, Vec3.get_zero, Vec3.get_one, Vec3.get_two] at hsel hvm
  · have hX := coordCrossed p.x v.x q hvm hsel
    have hY := coordOther p.y v.y q hy0 hy1 hqnn hmin1
    have hZ := coordOther p.z v.z q hz0 hz1 hqnn hmin2
    simp [mkKey, keyVec, inCube]
    refine ⟨?_, ?_, ?_, ?_, ?_, ?_⟩ <;>
      linarith [hX.1, hX.2, hY.1, hY.2, hZ.1, hZ.2]
  · have hX := coordOther p.x v.x q hx0 hx1 hqnn hmin0
    have hY := coordCrossed p.y v.y q hvm hsel
    have hZ := coordOther p.z v.z q hz0 hz1 hqnn hmin2
    simp [mkKey, keyVec, inCube]
    refine ⟨?_, ?_, ?_, ?_, ?_, ?_⟩ <;>
      linarith [hX.1, hX.2, hY.1, hY.2, hZ.1, hZ.2]
  · have hX := coordOther p.x v.x q hx0 hx1 hqnn hmin0
    have hY := coordOther p.y v.y q hy0 hy1 hqnn hmin1
    have hZ := coordCrossed p.z v.z q hvm hsel
    simp [mkKey, keyVec, inCube]
    refine ⟨?_, ?_, ?_, ?_, ?_, ?_⟩ <;>
      linarith [hX.1, hX.2, hY.1, hY.2, hZ.1, hZ.2]

/-- Witness for C3 at a concrete input: `p = (1/2, 1/2, 1/2)`,
`v = (1, 2, 0)`. -/
theorem advance_stays_in_unit_cube_witness :
    inCube (⟨1/2, 1/2, 1/2⟩ : Vec3) ∧ ((⟨1, 2, 0⟩ : Vec3) ≠ ⟨0, 0, 0⟩) ∧
      inCube (lattice_intersect len0 ⟨1/2, 1/2, 1/2⟩ ⟨1, 2, 0⟩).1 :=
  ⟨by norm_num [inCube], by simp,
    advance_stays_in_unit_cube len0 ⟨1/2, 1/2, 1/2⟩ ⟨1, 2, 0⟩
      (by norm_num [inCube]) (by simp)⟩

/-! ## Claim C2 — the tie-break direction of the selection loop -/

/-- Counterexample to C2: at `pos = (1/2, 1/2, 1/2)`, `dir = (1, 1, 1)`
all three axes tie in the minimal exit parameter, yet the crossing is
reported on axis 2 (`key = (0, 0, 1)`), not on axis 0 (`key = (1, 0, 0)`)
as lowest-axis precedence would require. -/
theorem tie_break_counterexample :
    fpEq (tOf ⟨1/2, 1/2, 1/2⟩ ⟨1, 1, 1⟩ 0) (tmin ⟨1/2, 1/2, 1/2⟩ ⟨1, 1, 1⟩) = true ∧
    fpEq (tOf ⟨1/2, 1/2, 1/2⟩ ⟨1, 1, 1⟩ 1) (tmin ⟨1/2, 1/2, 1/2⟩ ⟨1, 1, 1⟩) = true ∧
    fpEq (tOf ⟨1/2, 1/2, 1/2⟩ ⟨1, 1, 1⟩ 2) (tmin ⟨1/2, 1/2, 1/2⟩ ⟨1, 1, 1⟩) = true ∧
    (lattice_intersect len0 ⟨1/2, 1/2, 1/2⟩ ⟨1, 1, 1⟩).2.1 = (0, 0, 1) ∧
    (lattice_intersect len0 ⟨1/2, 1/2, 1/2⟩ ⟨1, 1, 1⟩).2.1 ≠ (1, 0, 0) := by
  norm_num [lattice_intersect, keyOf, imin, tmin, tOf, exitT, fdiv, signumQ,
    signumZ, mkKey, fpEq, fpMin, List.range_succ]

/-- C2 (amended): on ties in the minimal exit parameter, the single-step
primitive reports the crossing on the **highest**-numbered tied axis
(axis 2 over axis 1 over axis 0, last-match-wins): every tied axis index
is at most the selected index `imin`, the selected axis is itself tied,
and the returned crossing key is the axis-`imin` descriptor. -/
theorem tie_break_selects_highest_axis (len : Vec3 → ℚ) (p v : Vec3) (j : ℕ)
    (hj : j < 3) (htie : fpEq (tOf p v j) (tmin p v) = true) :
    j ≤ imin p v ∧ fpEq (tOf p v (imin p v)) (tmin p v) = true ∧
      (lattice_intersect len p v).2.1 = mkKey (imin p v) (signumZ (v.get (imin p v))) :=
  ⟨imin_maximal p v j hj htie, imin_tied p v j hj htie, rfl⟩

/-- Witness for the amended C2 at a concrete tie: `pos = (1/2, 1/2, 1/2)`,
`dir = (1, 1, 0)` ties axes 0 and 1. -/
theorem tie_break_selects_highest_axis_witness :
    (0 < 3) ∧
    fpEq (tOf ⟨1/2, 1/2, 1/2⟩ ⟨1, 1, 0⟩ 0) (tmin ⟨1/2, 1/2, 1/2⟩ ⟨1, 1, 0⟩) = true ∧
    (0 ≤ imin ⟨1/2, 1/2, 1/2⟩ ⟨1, 1, 0⟩ ∧
      fpEq (tOf ⟨1/2, 1/2, 1/2⟩ ⟨1, 1, 0⟩ (imin ⟨1/2, 1/2, 1/2⟩ ⟨1, 1, 0⟩))
        (tmin ⟨1/2, 1/2, 1/2⟩ ⟨1, 1, 0⟩) = true ∧
      (lattice_intersect len0 ⟨1/2, 1/2, 1/2⟩ ⟨1, 1, 0⟩).2.1 =
        mkKey (imin ⟨1/2, 1/2, 1/2⟩ ⟨1, 1, 0⟩)
          (signumZ ((⟨1, 1, 0⟩ : Vec3).get (imin ⟨1/2, 1/2, 1/2⟩ ⟨1, 1, 0⟩)))) :=
  ⟨by norm_num,
    by norm_num [tOf, tmin, exitT, fdiv, signumQ, fpEq, fpMin],
    tie_break_selects_highest_axis len0 ⟨1/2, 1/2, 1/2⟩ ⟨1, 1, 0⟩ 0 (by norm_num)
      (by norm_num [tOf, tmin, exitT, fdiv, signumQ, fpEq, fpMin])⟩

/-! ## Claim C7 — zero-direction axes and the minimum search -/

/-- Counterexample to C7: for the direction vector `(0, 0, 0)` every
component's exit parameter is `+inf`, the loop still selects axis 2, and
the crossing descriptor `(0, 0, 1)` names an axis whose direction
component is exactly zero. -/
theorem zero_direction_axis_selected_counterexample :
    (⟨0, 0, 0⟩ : Vec3).z = 0 ∧
    inCube (⟨1/2, 1/2, 1/2⟩ : Vec3) ∧
    (lattice_intersect len0 ⟨1/2, 1/2, 1/2⟩ ⟨0, 0, 0⟩).2.1 = (0, 0, 1) := by
  refine ⟨rfl, by norm_num [inCube], ?_⟩
  norm_num [lattice_intersect, keyOf, imin, tmin, tOf, exitT, fdiv, signumQ,
    signumZ, mkKey, fpEq, fpMin, List.range_succ]

/-- C7 (amended): for every local position in the unit cube and every
direction with at least one nonzero component, the axis selected by the
minimum search has a nonzero direction component, so the crossing
descriptor (which always names axis `imin`) never names a zero-direction
axis. -/
theorem selected_axis_has_nonzero_direction (len : Vec3 → ℚ) (p v : Vec3)
    (hp : inCube p) (hv : v ≠ ⟨0, 0, 0⟩) :
    v.get (imin p v) ≠ 0 ∧
      (lattice_intersect len p v).2.1 = mkKey (imin p v) (signumZ (v.get (imin p v))) := by
  obtain ⟨q, hq, hqnn, hsel, hvm, h0, h1, h2⟩ := latticeMain p v hp hv
  exact ⟨hvm, rfl⟩

/-- Witness for the amended C7 at `p = (0, 0, 0)`, `v = (0, 3, 0)`. -/
theorem selected_axis_has_nonzero_direction_witness :
    inCube (⟨0, 0, 0⟩ : Vec3) ∧ ((⟨0, 3, 0⟩ : Vec3) ≠ ⟨0, 0, 0⟩) ∧
      ((⟨0, 3, 0⟩ : Vec3).get (imin ⟨0, 0, 0⟩ ⟨0, 3, 0⟩) ≠ 0 ∧
        (lattice_intersect len0 ⟨0, 0, 0⟩ ⟨0, 3, 0⟩).2.1 =
          mkKey (imin ⟨0, 0, 0⟩ ⟨0, 3, 0⟩)
            (signumZ ((⟨0, 3, 0⟩ : Vec3).get (imin ⟨0, 0, 0⟩ ⟨0, 3, 0⟩)))) :=
  ⟨by norm_num [inCube], by simp,
    selected_axis_has_nonzero_direction len0 ⟨0, 0, 0⟩ ⟨0, 3, 0⟩
      (by norm_num [inCube]) (by simp)⟩

/-! ## Helper lemmas about lists and `raycastAux` -/

theorem getD_set_ne {α : Type} (l : List α) (i j : ℕ) (a d : α) (h : i ≠ j) :
    (l.set i a).getD j d = l.getD j d := by
  simp [List.getD_eq_getElem?_getD, List.getElem?_set_ne h]

theorem getD_set_self {α : Type} (l : List α) (i : ℕ) (a d : α) (h : i < l.length) :
    (l.set i a).getD i d = a := by
  simp [List.getD_eq_getElem?_getD, List.getElem?_set_self, h]

theorem getD_of_le {α : Type} (l : List α) (i : ℕ) (d : α) (h : l.length ≤ i) :
    l.getD i d = d := by
  simp [List.getD_eq_getElem?_getD, List.getElem?_eq_none h]

theorem getD_replicate' {α : Type} (n i : ℕ) (x d : α) (h : i < n) :
    (List.replicate n x).getD i d = x := by
  simp [List.getD_eq_getElem?_getD, List.getElem?_replicate, h]

theorem raycastAux_succ (world : World) (len : Vec3 → ℚ) (ray : Vec3) (n i : ℕ)
    (x : Vec3) (d : ℚ) :
    raycastAux world len ray (n + 1) i x d =
      if (world.at (stepNeighbor world i (lattice_intersect len x ray).2.1)).voxel.transparent
      then raycastAux world len ray n (stepNeighbor world i (lattice_intersect len x ray).2.1)
            (lattice_intersect len x ray).1 (d + (lattice_intersect len x ray).2.2)
      else (true, stepNeighbor world i (lattice_intersect len x ray).2.1,
            (lattice_intersect len x ray).1, d + (lattice_intersect len x ray).2.2) := rfl

/-- If the step budget runs out without a hit, the state carried by the
loop is the `n`-fold iterate of the single raycast step. -/
theorem raycastAux_miss_state (world : World) (len : Vec3 → ℚ) (ray : Vec3) (n : ℕ) :
    ∀ (i : ℕ) (x : Vec3) (d : ℚ), (raycastAux world len ray n i x d).1 = false →
      ((raycastAux world len ray n i x d).2.1, (raycastAux world len ray n i x d).2.2.1)
        = (rayStep world len ray)^[n] (i, x) := by
  induction n with
  | zero => intro i x d _; simp [raycastAux]
  | succ n ih =>
    intro i x d h
    rw [raycastAux_succ] at h ⊢
    rw [Function.iterate_succ_apply]
    by_cases ht :
        (world.at (stepNeighbor world i (lattice_intersect len x ray).2.1)).voxel.transparent
    · rw [if_pos ht] at h ⊢
      exact ih _ _ _ h
    · rw [if_neg ht] at h
      cases h

/-- If the step budget (at least one step) runs out without a hit, the cell
the loop ends on was checked transparent by its last iteration. -/
theorem raycastAux_miss_transparent (world : World) (len : Vec3 → ℚ) (ray : Vec3) (n : ℕ) :
    1 ≤ n → ∀ (i : ℕ) (x : Vec3) (d : ℚ), (raycastAux world len ray n i x d).1 = false →
      (world.at (raycastAux world len ray n i x d).2.1).voxel.transparent = true := by
  induction n with
  | zero => intro h; omega
  | succ n ih =>
    intro _ i x d h
    rw [raycastAux_succ] at h ⊢
    by_cases ht :
        (world.at (stepNeighbor world i (lattice_intersect len x ray).2.1)).voxel.transparent
    · rw [if_pos ht] at h ⊢
      rcases Nat.eq_zero_or_pos n with hn | hn
      · subst hn
        simpa [raycastAux] using ht
      · exact ih hn _ _ _ h
    · rw [if_neg ht] at h
      cases h

/-- The break edit never turns a transparent cell opaque (shared by the
C10 theorem): it only ever writes `transparent := true`. -/
theorem breakEdit_keeps_transparent (world : World) (tgt j : ℕ)
    (hj : (world.at j).voxel.transparent = true) :
    ((breakEdit world tgt).at j).voxel.transparent = true := by
  unfold breakEdit World.at
  by_cases hje : j = tgt
  · subst hje
    by_cases hlt : j < world.length
    · rw [getD_set_self _ _ _ _ hlt]
    · rw [List.set_eq_of_length_le (by omega)]
      exact hj
  · rw [getD_set_ne _ _ _ _ _ (fun h => hje h.symm)]
    exact hj

/-! ## Claim C1 — the miss path of `raycast` returns the step count -/

/-- C1: if `raycast` completes `max_steps` steps without finding an opaque
cell (the early return never fires), it returns the last cell visited and
the last local position (the `max_steps`-fold iterate of the single step),
and the step count `max_steps` cast to a numeric value in the distance
field — for every norm `len`, i.e. independently of the accumulated
physical distance of the steps taken. -/
theorem raycast_miss_returns_step_count (world : World) (len : Vec3 → ℚ)
    (vox_id : ℕ) (basepoint ray : Vec3) (max_steps : ℕ)
    (hmiss : (raycastAux world len ray max_steps vox_id basepoint 0).1 = false) :
    raycast world len vox_id basepoint ray max_steps =
      (((rayStep world len ray)^[max_steps] (vox_id, basepoint)).1,
       ((rayStep world len ray)^[max_steps] (vox_id, basepoint)).2,
       (max_steps : ℚ)) := by
  have hstate := raycastAux_miss_state world len ray max_steps vox_id basepoint 0 hmiss
  rcases haux : raycastAux world len ray max_steps vox_id basepoint 0 with ⟨b, i, x, d⟩
  rw [haux] at hmiss hstate
  simp only at hmiss hstate
  subst hmiss
  unfold raycast
  rw [haux]
  simp only
  rw [Prod.mk.injEq] at hstate
  rw [hstate.1, hstate.2]

/-- Witness computation shared by the C1 and C10 witnesses: in the
`1 × 1 × 1` all-transparent world, a one-step raycast from the cell center
along `+x` exhausts its budget without a hit. -/
theorem W1_miss_eval :
    (raycastAux W1 len0 ⟨1, 0, 0⟩ 1 0 ⟨1/2, 1/2, 1/2⟩ 0).1 = false := by
  have hW1 : W1 = [initPair] := by decide
  rw [show (1 : ℕ) = 0 + 1 from rfl, raycastAux_succ, hW1]
  norm_num [lattice_intersect, keyOf, imin, tmin, tOf, exitT, fdiv, signumQ,
    signumZ, mkKey, fpEq, fpMin, List.range_succ, stepNeighbor, World.at,
    initPair, raycastAux]

/-- Witness for C1 at the concrete miss of `W1_miss_eval`. -/
theorem raycast_miss_returns_step_count_witness :
    (raycastAux W1 len0 ⟨1, 0, 0⟩ 1 0 ⟨1/2, 1/2, 1/2⟩ 0).1 = false ∧
      raycast W1 len0 0 ⟨1/2, 1/2, 1/2⟩ ⟨1, 0, 0⟩ 1 =
        (((rayStep W1 len0 ⟨1, 0, 0⟩)^[1] (0, ⟨1/2, 1/2, 1/2⟩)).1,
         ((rayStep W1 len0 ⟨1, 0, 0⟩)^[1] (0, ⟨1/2, 1/2, 1/2⟩)).2, (1 : ℚ)) :=
  ⟨W1_miss_eval,
    raycast_miss_returns_step_count W1 len0 0 ⟨1/2, 1/2, 1/2⟩ ⟨1, 0, 0⟩ 1 W1_miss_eval⟩

/-! ## Claim C10 — the cell returned by the miss path is transparent -/

/-- C10: if `raycast` (with a step budget of at least one) returns via the
miss path, the returned cell index refers to a transparent cell, and
consequently the break edit (which only writes `transparent := true`)
applied to the returned target never changes any cell from transparent to
opaque. -/
theorem raycast_miss_cell_transparent (world : World) (len : Vec3 → ℚ)
    (vox_id : ℕ) (basepoint ray : Vec3) (max_steps : ℕ) (hn : 1 ≤ max_steps)
    (hmiss : (raycastAux world len ray max_steps vox_id basepoint 0).1 = false) :
    (world.at (raycast world len vox_id basepoint ray max_steps).1).voxel.transparent = true ∧
    ∀ j, (world.at j).voxel.transparent = true →
      (World.at (breakEdit world (raycast world len vox_id basepoint ray max_steps).1)
        j).voxel.transparent = true := by
  have htr :=
    raycastAux_miss_transparent world len ray max_steps hn vox_id basepoint 0 hmiss
  have hcell :
      (raycast world len vox_id basepoint ray max_steps).1 =
        (raycastAux world len ray max_steps vox_id basepoint 0).2.1 := by
    rcases haux : raycastAux world len ray max_steps vox_id basepoint 0 with ⟨b, i, x, d⟩
    rw [haux] at hmiss
    simp only at hmiss
    subst hmiss
    unfold raycast
    rw [haux]
  rw [hcell]
  exact ⟨htr, fun j hj => breakEdit_keeps_transparent world _ j hj⟩

/-- Witness for C10 at the concrete miss of `W1_miss_eval`. -/
theorem raycast_miss_cell_transparent_witness :
    1 ≤ 1 ∧ (raycastAux W1 len0 ⟨1, 0, 0⟩ 1 0 ⟨1/2, 1/2, 1/2⟩ 0).1 = false ∧
      ((W1.at (raycast W1 len0 0 ⟨1/2, 1/2, 1/2⟩ ⟨1, 0, 0⟩ 1).1).voxel.transparent = true ∧
      ∀ j, (W1.at j).voxel.transparent = true →
        (World.at (breakEdit W1 (raycast W1 len0 0 ⟨1/2, 1/2, 1/2⟩ ⟨1, 0, 0⟩ 1).1)
          j).voxel.transparent = true) :=
  ⟨le_refl 1, W1_miss_eval,
    raycast_miss_cell_transparent W1 len0 0 ⟨1/2, 1/2, 1/2⟩ ⟨1, 0, 0⟩ 1
      (le_refl 1) W1_miss_eval⟩

/-! ## Claim C8 — the zero-vector movement case -/

/-- C8: on a tick with no movement key held, the accumulated
desired-direction vector is the zero vector, normalizing it takes the
handled `None` branch (no failure or NaN value is produced in the model),
and the movement displacement applied to the local position is exactly
zero — the position is returned unchanged. -/
theorem zero_movement_no_displacement (nrm : Vec3 → Vec3) (speed : ℚ)
    (p look right : Vec3) :
    moveDir ⟨false, false, false, false, false⟩ look right = ⟨0, 0, 0⟩ ∧
    try_normalize nrm (moveDir ⟨false, false, false, false, false⟩ look right) = none ∧
    applyMove nrm speed p (moveDir ⟨false, false, false, false, false⟩ look right) = p := by
  have h1 : moveDir ⟨false, false, false, false, false⟩ look right = ⟨0, 0, 0⟩ := rfl
  have h2 : try_normalize nrm (⟨0, 0, 0⟩ : Vec3) = none := by
    unfold try_normalize lenSq
    norm_num
  refine ⟨h1, by rw [h1, h2], ?_⟩
  unfold applyMove
  rw [h1, h2]

/-! ## Claim C9 — the fog blend formula of the renderer -/

/-- C9: for every pixel, the renderer's stored color equals the linear
interpolation `fade • ambient + (1 - fade) • hitColor`, where `fade` is
`1.7321` times the raycast-returned distance divided by the view-distance
step budget, replaced by its halfway blend toward `1` exactly when the hit
cell equals the targeted cell (`pixelColorSpec`/`fadeSpec` transcribe the
spec's words). -/
theorem pixel_color_matches_spec (world : World) (len : Vec3 → ℚ) (cam_i : ℕ)
    (cam_pos ray : Vec3) (target_i : ℕ) :
    (renderPixel world len cam_i cam_pos ray target_i).1 =
      pixelColorSpec AMBIENT
        ((world.at (raycast world len cam_i cam_pos ray VIEW_DISTANCE).1).voxel.color)
        ((raycast world len cam_i cam_pos ray VIEW_DISTANCE).2.2)
        ((raycast world len cam_i cam_pos ray VIEW_DISTANCE).1 == target_i) := by
  unfold renderPixel pixelColorSpec fadeSpec
  by_cases h : (raycast world len cam_i cam_pos ray VIEW_DISTANCE).1 = target_i
  · simp [h]
  · simp [h]

/-! ## Claim C6 — cell-boundary rebasing and the unit-range invariant -/

theorem shiftQ_bounds (c : ℚ) (h1 : -1 ≤ c) (h2 : c ≤ 2) :
    0 ≤ c + shiftQ c ∧ c + shiftQ c ≤ 1 := by
  unfold shiftQ
  split_ifs with ha hb <;> constructor <;> linarith

theorem rebase_snd (world : World) (i : ℕ) (p : Vec3) :
    (rebase world i p).2 = ⟨p.x + shiftQ p.x, p.y + shiftQ p.y, p.z + shiftQ p.z⟩ := by
  unfold rebase
  simp only [Vec3.add_def]

/-- Counterexample to C6: a tick whose position deltas leave the local
position at `(1/2, -3/2, 1/2)` (an overshoot of more than one cell on the
`y` axis, as an extended gravity fall produces) completes the rebasing
step with `y = -1/2`, still outside `[0, 1]`. -/
theorem rebase_counterexample :
    ((rebase W1 0 ⟨1/2, -(3/2), 1/2⟩).2).y = -(1/2) ∧
    ¬ inCube (rebase W1 0 ⟨1/2, -(3/2), 1/2⟩).2 := by
  constructor
  · norm_num [rebase, shiftQ]
  · norm_num [rebase, shiftQ, inCube]

/-- C6 (amended): whenever each component of the post-delta local position
is out of range by at most one cell (within `[-1, 2]`), the rebasing step
returns a local offset with every component in `[0, 1]`. -/
theorem rebase_bounded_overflow_in_cube (world : World) (i : ℕ) (p : Vec3)
    (hx : -1 ≤ p.x ∧ p.x ≤ 2) (hy : -1 ≤ p.y ∧ p.y ≤ 2)
    (hz : -1 ≤ p.z ∧ p.z ≤ 2) :
    inCube (rebase world i p).2 := by
  have hX := shiftQ_bounds p.x hx.1 hx.2
  have hY := shiftQ_bounds p.y hy.1 hy.2
  have hZ := shiftQ_bounds p.z hz.1 hz.2
  rw [rebase_snd]
  exact ⟨hX.1, hX.2, hY.1, hY.2, hZ.1, hZ.2⟩

/-- Witness for the amended C6 at the one-cell overshoot
`p = (-1/2, 3/2, 1/2)`. -/
theorem rebase_bounded_overflow_in_cube_witness :
    (-1 ≤ (-(1/2) : ℚ) ∧ (-(1/2) : ℚ) ≤ 2) ∧
    (-1 ≤ ((3/2) : ℚ) ∧ ((3/2) : ℚ) ≤ 2) ∧
    (-1 ≤ ((1/2) : ℚ) ∧ ((1/2) : ℚ) ≤ 2) ∧
    inCube (rebase W1 0 ⟨-(1/2), 3/2, 1/2⟩).2 :=
  ⟨by norm_num, by norm_num, by norm_num,
    rebase_bounded_overflow_in_cube W1 0 ⟨-(1/2), 3/2, 1/2⟩
      (by norm_num) (by norm_num) (by norm_num)⟩

/-! ## Helper lemmas about `furl` and the loop index lists -/

theorem furl_eq (i j k ny nz : ℕ) : furl i j k ny nz = (i * ny + j) * nz + k := by
  unfold furl
  ring

theorem mul_add_inj (q r1 r2 a1 a2 : ℕ) (h1 : r1 < q) (h2 : r2 < q)
    (h : a1 * q + r1 = a2 * q + r2) : a1 = a2 ∧ r1 = r2 := by
  have hq : 0 < q := Nat.lt_of_le_of_lt (Nat.zero_le r1) h1
  have hdiv : ∀ a r, r < q → (a * q + r) / q = a := by
    intro a r hr
    rw [Nat.add_comm, Nat.mul_comm, Nat.add_mul_div_left _ _ hq, Nat.div_eq_of_lt hr]
    omega
  have ha : a1 = a2 := by
    have := congrArg (· / q) h
    simpa [hdiv a1 r1 h1, hdiv a2 r2 h2] using this
  subst ha
  exact ⟨rfl, Nat.add_left_cancel h⟩

theorem furl_inj (ny nz i1 j1 k1 i2 j2 k2 : ℕ) (hj1 : j1 < ny) (hk1 : k1 < nz)
    (hj2 : j2 < ny) (hk2 : k2 < nz)
    (h : furl i1 j1 k1 ny nz = furl i2 j2 k2 ny nz) :
    i1 = i2 ∧ j1 = j2 ∧ k1 = k2 := by
  rw [furl_eq, furl_eq] at h
  obtain ⟨hA, hk⟩ := mul_add_inj nz k1 k2 _ _ hk1 hk2 h
  obtain ⟨hi, hj⟩ := mul_add_inj ny j1 j2 _ _ hj1 hj2 hA
  exact ⟨hi, hj, hk⟩

theorem furl_lt (nx ny nz i j k : ℕ) (hi : i < nx) (hj : j < ny) (hk : k < nz) :
    furl i j k ny nz < nx * ny * nz := by
  rw [furl_eq]
  have h1 : i * ny + j + 1 ≤ nx * ny := by
    calc i * ny + j + 1 ≤ i * ny + ny := by omega
    _ = (i + 1) * ny := by ring
    _ ≤ nx * ny := Nat.mul_le_mul_right ny (by omega)
  calc (i * ny + j) * nz + k < (i * ny + j) * nz + nz := by omega
  _ = (i * ny + j + 1) * nz := by ring
  _ ≤ (nx * ny) * nz := Nat.mul_le_mul_right nz h1
  _ = nx * ny * nz := by ring

theorem exists_furl (nx ny nz n : ℕ) (hy : 1 ≤ ny) (hz : 1 ≤ nz)
    (hn : n < nx * ny * nz) :
    ∃ i j k, i < nx ∧ j < ny ∧ k < nz ∧ furl i j k ny nz = n := by
  refine ⟨n / (ny * nz), n / nz % ny, n % nz, ?_, ?_, ?_, ?_⟩
  · rw [Nat.div_lt_iff_lt_mul (by positivity)]
    calc n < nx * ny * nz := hn
    _ = nx * (ny * nz) := by ring
  · exact Nat.mod_lt _ hy
  · exact Nat.mod_lt _ hz
  · rw [furl_eq]
    have hdd : n / (ny * nz) = n / nz / ny := by
      rw [Nat.div_div_eq_div_mul, Nat.mul_comm]
    rw [hdd]
    have h1 : n / nz / ny * ny + n / nz % ny = n / nz := by
      rw [Nat.mul_comm]
      exact Nat.div_add_mod (n / nz) ny
    rw [h1, Nat.mul_comm]
    exact Nat.div_add_mod n nz

theorem mem_triples (a b c : ℕ) (i j k : ℕ) :
    (i, j, k) ∈ triples a b c ↔ i < a ∧ j < b ∧ k < c := by
  simp [triples, List.mem_flatMap, List.mem_map, List.mem_range, Prod.ext_iff]
  constructor
  · rintro ⟨i', hi', j', hj', k', hk', h1, h2, h3⟩
    subst h1; subst h2; subst h3
    exact ⟨hi', hj', hk'⟩
  · rintro ⟨hi, hj, hk⟩
    exact ⟨i, hi, j, hj, k, hk, rfl, rfl, rfl⟩

theorem upIdx_lt (i n : ℕ) (hn : 1 ≤ n) : upIdx i n < n := by
  unfold upIdx
  have hn' : (0 : ℤ) < (n : ℤ) := by exact_mod_cast hn
  have h1 := Int.emod_lt_of_pos ((i : ℤ) + 1) hn'
  have h2 := Int.emod_nonneg ((i : ℤ) + 1) (by omega : (n : ℤ) ≠ 0)
  omega

theorem up_down_roundtrip (i n : ℕ) (hn : 1 ≤ n) (hi : i < n) :
    downIdx (upIdx i n) n = i := by
  unfold downIdx
  have hn' : (0 : ℤ) < (n : ℤ) := by exact_mod_cast hn
  have h2 : (0 : ℤ) ≤ ((i : ℤ) + 1) % (n : ℤ) :=
    Int.emod_nonneg _ (by omega : (n : ℤ) ≠ 0)
  rw [show ((upIdx i n : ℕ) : ℤ) = ((i : ℤ) + 1) % (n : ℤ) by
    unfold upIdx; exact Int.toNat_of_nonneg h2]
  have key : (((i : ℤ) + 1) % (n : ℤ) - 1) % (n : ℤ) = (i : ℤ) := by
    conv_lhs => rw [Int.sub_emod, Int.emod_emod_of_dvd _ dvd_rfl, ← Int.sub_emod]
    have h3 : (i : ℤ) + 1 - 1 = (i : ℤ) := by ring
    rw [h3]
    exact Int.emod_eq_of_lt (by positivity) (by exact_mod_cast hi)
  rw [key]
  exact Int.toNat_natCast i

/-! ## Characterizing the two construction loops of `build_world` -/

theorem linkFold_length (nx ny nz : ℕ) (ts : List (ℕ × ℕ × ℕ)) :
    ∀ w : World, (ts.foldl (linkStep nx ny nz) w).length = w.length := by
  induction ts with
  | nil => intro w; rfl
  | cons t ts ih =>
    intro w
    rw [List.foldl_cons, ih]
    simp [linkStep, setNeighbors]

theorem linkFold_untouched (nx ny nz : ℕ) (ts : List (ℕ × ℕ × ℕ)) (m : ℕ) :
    ∀ w : World, (∀ t ∈ ts, furl t.1 t.2.1 t.2.2 ny nz ≠ m) →
      (ts.foldl (linkStep nx ny nz) w).getD m initPair = w.getD m initPair := by
  induction ts with
  | nil => intro w _; rfl
  | cons t ts ih =>
    intro w h
    rw [List.foldl_cons, ih _ (fun t' ht' => h t' (List.mem_cons_of_mem _ ht'))]
    exact getD_set_ne _ _ _ _ _ (h t (List.mem_cons_self t ts))

theorem linkFold_voxel (nx ny nz : ℕ) (ts : List (ℕ × ℕ × ℕ)) (m : ℕ) :
    ∀ w : World,
      ((ts.foldl (linkStep nx ny nz) w).getD m initPair).voxel
        = (w.getD m initPair).voxel := by
  induction ts with
  | nil => intro w; rfl
  | cons t ts ih =>
    intro w
    rw [List.foldl_cons, ih]
    unfold linkStep setNeighbors World.at
    by_cases he : furl t.1 t.2.1 t.2.2 ny nz = m
    · subst he
      by_cases hlt : furl t.1 t.2.1 t.2.2 ny nz < w.length
      · rw [getD_set_self _ _ _ _ hlt]
      · rw [List.set_eq_of_length_le (by omega)]
    · rw [getD_set_ne _ _ _ _ _ he]

theorem linkFold_neighbors (nx ny nz : ℕ) (ts : List (ℕ × ℕ × ℕ)) (a b c : ℕ) :
    ∀ w : World, (a, b, c) ∈ ts →
      (∀ t ∈ ts, t ≠ (a, b, c) → furl t.1 t.2.1 t.2.2 ny nz ≠ furl a b c ny nz) →
      furl a b c ny nz < w.length →
      ((ts.foldl (linkStep nx ny nz) w).getD (furl a b c ny nz) initPair).neighbors
        = regularNeighbors nx ny nz a b c := by
  induction ts with
  | nil => intro w hmem; cases hmem
  | cons t ts ih =>
    intro w hmem hdist hlen
    rw [List.foldl_cons]
    by_cases hmem' : (a, b, c) ∈ ts
    · refine ih _ hmem' (fun t' ht' => hdist t' (List.mem_cons_of_mem _ ht')) ?_
      calc furl a b c ny nz < w.length := hlen
      _ = (linkStep nx ny nz w t).length := by simp [linkStep, setNeighbors]
    · have ht : t = (a, b, c) := by
        rcases List.mem_cons.mp hmem with h | h
        · exact h.symm
        · exact absurd h hmem'
      subst ht
      rw [linkFold_untouched nx ny nz ts _ _ (fun t' ht' => by
        have hne : t' ≠ (a, b, c) := fun hh => hmem' (hh ▸ ht')
        exact hdist t' (List.mem_cons_of_mem _ ht') hne)]
      unfold linkStep setNeighbors
      rw [getD_set_self _ _ _ _ hlen]

theorem terrainStep_apply (rng : ℕ → ℕ) (ny nz : ℕ) (w : World) (cnt : ℕ)
    (t : ℕ × ℕ × ℕ) :
    terrainStep rng ny nz (w, cnt) t =
      (List.set w (furl t.1 t.2.1 t.2.2 ny nz)
        { World.at w (furl t.1 t.2.1 t.2.2 ny nz) with
          voxel :=
            { color := ⟨randr 0.5 0.55 (rng cnt), randr 0.5 0.55 (rng (cnt + 1)),
                randr 0.5 0.55 (rng (cnt + 2)), 1⟩,
              transparent := false } }, cnt + 3) := rfl

theorem terrainFold_length (rng : ℕ → ℕ) (ny nz : ℕ) (ts : List (ℕ × ℕ × ℕ)) :
    ∀ (w : World) (cnt : ℕ),
      ((ts.foldl (terrainStep rng ny nz) (w, cnt)).1).length = w.length := by
  induction ts with
  | nil => intro w cnt; rfl
  | cons t ts ih =>
    intro w cnt
    rw [List.foldl_cons, terrainStep_apply, ih]
    simp

theorem terrainFold_untouched (rng : ℕ → ℕ) (ny nz : ℕ) (ts : List (ℕ × ℕ × ℕ)) (m : ℕ) :
    ∀ (w : World) (cnt : ℕ), (∀ t ∈ ts, furl t.1 t.2.1 t.2.2 ny nz ≠ m) →
      ((ts.foldl (terrainStep rng ny nz) (w, cnt)).1).getD m initPair
        = w.getD m initPair := by
  induction ts with
  | nil => intro w cnt _; rfl
  | cons t ts ih =>
    intro w cnt h
    rw [List.foldl_cons, terrainStep_apply,
      ih _ _ (fun t' ht' => h t' (List.mem_cons_of_mem _ ht'))]
    exact getD_set_ne _ _ _ _ _ (h t (List.mem_cons_self t ts))

theorem terrainFold_neighbors (rng : ℕ → ℕ) (ny nz : ℕ) (ts : List (ℕ × ℕ × ℕ)) (m : ℕ) :
    ∀ (w : World) (cnt : ℕ),
      (((ts.foldl (terrainStep rng ny nz) (w, cnt)).1).getD m initPair).neighbors
        = (w.getD m initPair).neighbors := by
  induction ts with
  | nil => intro w cnt; rfl
  | cons t ts ih =>
    intro w cnt
    rw [List.foldl_cons, terrainStep_apply, ih]
    unfold World.at
    by_cases he : furl t.1 t.2.1 t.2.2 ny nz = m
    · subst he
      by_cases hlt : furl t.1 t.2.1 t.2.2 ny nz < w.length
      · rw [getD_set_self _ _ _ _ hlt]
      · rw [List.set_eq_of_length_le (by omega)]
    · rw [getD_set_ne _ _ _ _ _ he]

theorem randr_mem (r : ℕ) (hr : r < 2 ^ 32) :
    1/2 ≤ randr 0.5 0.55 r ∧ randr 0.5 0.55 r ≤ 11/20 := by
  unfold randr randf
  have hden : (0 : ℚ) < ((2 ^ 32 - 1 : ℕ) : ℚ) := by norm_num
  have h0 : (0 : ℚ) ≤ (r : ℚ) / ((2 ^ 32 - 1 : ℕ) : ℚ) := by positivity
  have h1 : (r : ℚ) / ((2 ^ 32 - 1 : ℕ) : ℚ) ≤ 1 := by
    rw [div_le_one hden]
    exact_mod_cast Nat.cast_le.mpr (by omega : r ≤ 2 ^ 32 - 1)
  constructor <;> nlinarith

theorem terrainFold_banded (rng : ℕ → ℕ) (hrng : ∀ n, rng n < 2 ^ 32) (ny nz : ℕ)
    (ts : List (ℕ × ℕ × ℕ)) (a b c : ℕ) :
    ∀ (w : World) (cnt : ℕ), (a, b, c) ∈ ts →
      (∀ t ∈ ts, t ≠ (a, b, c) → furl t.1 t.2.1 t.2.2 ny nz ≠ furl a b c ny nz) →
      furl a b c ny nz < w.length →
      bandedOpaque
        (((ts.foldl (terrainStep rng ny nz) (w, cnt)).1).getD (furl a b c ny nz)
          initPair).voxel := by
  induction ts with
  | nil => intro w cnt hmem; cases hmem
  | cons t ts ih =>
    intro w cnt hmem hdist hlen
    rw [List.foldl_cons, terrainStep_apply]
    by_cases hmem' : (a, b, c) ∈ ts
    · refine ih _ _ hmem' (fun t' ht' => hdist t' (List.mem_cons_of_mem _ ht')) ?_
      calc furl a b c ny nz < w.length := hlen
      _ = (List.set w (furl t.1 t.2.1 t.2.2 ny nz)
            { World.at w (furl t.1 t.2.1 t.2.2 ny nz) with
              voxel :=
                { color := ⟨randr 0.5 0.55 (rng cnt), randr 0.5 0.55 (rng (cnt + 1)),
                    randr 0.5 0.55 (rng (cnt + 2)), 1⟩,
                  transparent := false } }).length := by simp
    · have ht : t = (a, b, c) := by
        rcases List.mem_cons.mp hmem with h | h
        · exact h.symm
        · exact absurd h hmem'
      subst ht
      rw [terrainFold_untouched rng ny nz ts _ _ _ (fun t' ht' => by
        have hne : t' ≠ (a, b, c) := fun hh => hmem' (hh ▸ ht')
        exact hdist t' (List.mem_cons_of_mem _ ht') hne)]
      rw [getD_set_self _ _ _ _ hlen]
      exact ⟨rfl, (randr_mem _ (hrng cnt)).1, (randr_mem _ (hrng cnt)).2,
        (randr_mem _ (hrng (cnt + 1))).1, (randr_mem _ (hrng (cnt + 1))).2,
        (randr_mem _ (hrng (cnt + 2))).1, (randr_mem _ (hrng (cnt + 2))).2, rfl⟩

/-- The generated world has the regular torus neighbor links at every
in-range cell `(i, j, k)`. -/
theorem build_world_neighbors (rng : ℕ → ℕ) (nx ny nz i j k : ℕ)
    (hi : i < nx) (hj : j < ny) (hk : k < nz) :
    (World.at (build_world rng nx ny nz) (furl i j k ny nz)).neighbors
      = regularNeighbors nx ny nz i j k := by
  unfold build_world World.at
  rw [terrainFold_neighbors]
  apply linkFold_neighbors
  · exact (mem_triples nx ny nz i j k).mpr ⟨hi, hj, hk⟩
  · intro t ht hne hfe
    obtain ⟨h1, h2, h3⟩ := (mem_triples nx ny nz t.1 t.2.1 t.2.2).mp (by
      rcases t with ⟨t1, t2, t3⟩; exact ht)
    obtain ⟨e1, e2, e3⟩ := furl_inj ny nz t.1 t.2.1 t.2.2 i j k h2 h3 hj hk hfe
    exact hne (by rcases t with ⟨t1, t2, t3⟩; simp_all)
  · rw [List.length_replicate]
    exact furl_lt nx ny nz i j k hi hj hk

/-- The generated world's cell `(i, j, k)` with `j < ny / 2` is an opaque
banded terrain voxel. -/
theorem build_world_voxel_opaque (rng : ℕ → ℕ) (hrng : ∀ n, rng n < 2 ^ 32)
    (nx ny nz i j k : ℕ) (hi : i < nx) (hj : j < ny / 2) (hk : k < nz) :
    bandedOpaque (World.at (build_world rng nx ny nz) (furl i j k ny nz)).voxel := by
  unfold build_world World.at
  apply terrainFold_banded rng hrng ny nz _ i j k
  · exact (mem_triples nx (ny / 2) nz i j k).mpr ⟨hi, hj, hk⟩
  · intro t ht hne hfe
    obtain ⟨h1, h2, h3⟩ := (mem_triples nx (ny / 2) nz t.1 t.2.1 t.2.2).mp (by
      rcases t with ⟨t1, t2, t3⟩; exact ht)
    obtain ⟨e1, e2, e3⟩ := furl_inj ny nz t.1 t.2.1 t.2.2 i j k
      (lt_of_lt_of_le h2 (Nat.div_le_self ny 2)) h3
      (lt_of_lt_of_le hj (Nat.div_le_self ny 2)) hk hfe
    exact hne (by rcases t with ⟨t1, t2, t3⟩; simp_all)
  · rw [linkFold_length, List.length_replicate]
    exact furl_lt nx ny nz i j k hi (lt_of_lt_of_le hj (Nat.div_le_self ny 2)) hk

/-- The generated world's cell `(i, j, k)` with `ny / 2 ≤ j` keeps the
initial voxel: transparent with the default color. -/
theorem build_world_voxel_transparent (rng : ℕ → ℕ) (nx ny nz i j k : ℕ)
    (hi : i < nx) (hj : j < ny) (hj2 : ny / 2 ≤ j) (hk : k < nz) :
    (World.at (build_world rng nx ny nz) (furl i j k ny nz)).voxel
      = initPair.voxel := by
  unfold build_world World.at
  rw [terrainFold_untouched rng ny nz _ _ _ _ (fun t ht hfe => by
    obtain ⟨h1, h2, h3⟩ := (mem_triples nx (ny / 2) nz t.1 t.2.1 t.2.2).mp (by
      rcases t with ⟨t1, t2, t3⟩; exact ht)
    obtain ⟨e1, e2, e3⟩ := furl_inj ny nz t.1 t.2.1 t.2.2 i j k
      (lt_of_lt_of_le h2 (Nat.div_le_self ny 2)) h3 hj hk hfe
    omega)]
  rw [linkFold_voxel]
  rw [getD_replicate' _ _ _ _ (furl_lt nx ny nz i j k hi hj hk)]

/-! ## Claim C4 — adjacency invertibility in the generated world -/

/-- C4: for all lattice dimensions at least `1`, in the world produced by
`build_world`, following any axis's positive neighbor link from any cell
and then the same axis's negative neighbor link returns to that cell. -/
theorem adjacency_up_down_roundtrip (rng : ℕ → ℕ) (nx ny nz n : ℕ)
    (hx : 1 ≤ nx) (hy : 1 ≤ ny) (hz : 1 ≤ nz) (hn : n < nx * ny * nz) :
    (World.at (build_world rng nx ny nz)
        ((World.at (build_world rng nx ny nz) n).neighbors.up_x)).neighbors.down_x = n ∧
    (World.at (build_world rng nx ny nz)
        ((World.at (build_world rng nx ny nz) n).neighbors.up_y)).neighbors.down_y = n ∧
    (World.at (build_world rng nx ny nz)
        ((World.at (build_world rng nx ny nz) n).neighbors.up_z)).neighbors.down_z = n := by
  obtain ⟨i, j, k, hi, hj, hk, hfurl⟩ := exists_furl nx ny nz n hy hz hn
  subst hfurl
  rw [build_world_neighbors rng nx ny nz i j k hi hj hk]
  unfold regularNeighbors
  refine ⟨?_, ?_, ?_⟩
  · rw [build_world_neighbors rng nx ny nz (upIdx i nx) j k (upIdx_lt i nx hx) hj hk]
    unfold regularNeighbors
    rw [up_down_roundtrip i nx hx hi]
  · rw [build_world_neighbors rng nx ny nz i (upIdx j ny) k hi (upIdx_lt j ny hy) hk]
    unfold regularNeighbors
    rw [up_down_roundtrip j ny hy hj]
  · rw [build_world_neighbors rng nx ny nz i j (upIdx k nz) hi hj (upIdx_lt k nz hz)]
    unfold regularNeighbors
    rw [up_down_roundtrip k nz hz hk]

/-- Witness for C4 in the `1 × 1 × 1` generated world. -/
theorem adjacency_up_down_roundtrip_witness :
    1 ≤ 1 ∧ 0 < 1 * 1 * 1 ∧
    ((World.at (build_world rng0 1 1 1)
        ((World.at (build_world rng0 1 1 1) 0).neighbors.up_x)).neighbors.down_x = 0 ∧
     (World.at (build_world rng0 1 1 1)
        ((World.at (build_world rng0 1 1 1) 0).neighbors.up_y)).neighbors.down_y = 0 ∧
     (World.at (build_world rng0 1 1 1)
        ((World.at (build_world rng0 1 1 1) 0).neighbors.up_z)).neighbors.down_z = 0) :=
  ⟨le_refl 1, by norm_num,
    adjacency_up_down_roundtrip rng0 1 1 1 0 (le_refl 1) (le_refl 1) (le_refl 1)
      (by norm_num)⟩

/-! ## Claim C5 — the terrain rule of the generator -/

/-- C5: in the world produced by `build_world rng nx ny nz` (for any `u32`
draw stream), every cell `(i, j, k)` with `j < ny / 2` is opaque with each
color channel in `[0.5, 0.55]` (and reserved channel `1`), and every cell
with `j ≥ ny / 2` is transparent with the default color `(0, 0, 0, 1)`. -/
theorem terrain_rule_holds (rng : ℕ → ℕ) (nx ny nz i j k : ℕ)
    (hrng : ∀ n, rng n < 2 ^ 32) (hi : i < nx) (hj : j < ny) (hk : k < nz) :
    (j < ny / 2 →
      bandedOpaque (World.at (build_world rng nx ny nz) (furl i j k ny nz)).voxel) ∧
    (ny / 2 ≤ j →
      (World.at (build_world rng nx ny nz) (furl i j k ny nz)).voxel.transparent = true ∧
      (World.at (build_world rng nx ny nz) (furl i j k ny nz)).voxel.color
        = ⟨0, 0, 0, 1⟩) := by
  constructor
  · intro hj2
    exact build_world_voxel_opaque rng hrng nx ny nz i j k hi hj2 hk
  · intro hj2
    rw [build_world_voxel_transparent rng nx ny nz i j k hi hj hj2 hk]
    exact ⟨rfl, rfl⟩

/-- Witness for C5 in the `1 × 2 × 1` generated world at cell `(0, 0, 0)`
(which lies in the opaque lower half). -/
theorem terrain_rule_holds_witness :
    (∀ n, rng0 n < 2 ^ 32) ∧ 0 < 1 ∧ 0 < 2 ∧ 0 < 1 ∧
    ((0 < 2 / 2 →
      bandedOpaque (World.at (build_world rng0 1 2 1) (furl 0 0 0 2 1)).voxel) ∧
     (2 / 2 ≤ 0 →
      (World.at (build_world rng0 1 2 1) (furl 0 0 0 2 1)).voxel.transparent = true ∧
      (World.at (build_world rng0 1 2 1) (furl 0 0 0 2 1)).voxel.color = ⟨0, 0, 0, 1⟩)) :=
  ⟨fun n => by norm_num [rng0], by norm_num, by norm_num, by norm_num,
    terrain_rule_holds rng0 1 2 1 0 0 0 (fun n => by norm_num [rng0])
      (by norm_num) (by norm_num) (by norm_num)⟩

end Voxeltorus
